import Mathlib

/-!
Shallow embedding of the setu CardDAV bridge (Rust sources under src/)
and verification of the specification claims about it.

Conventions of the embedding:
* Rust strings are Lean String values; all character-level work is done on
  the underlying List Char (String.data), because Rust str operations are
  byte-precise and the Lean String API does not reduce well in the kernel.
* The SQLite contacts table is a list of rows; SELECT ... ORDER BY
  display_name is modelled by a stable insertion sort on the BINARY
  (code-point) order of display_name.
* Clock readings (datetime, chrono::Utc::now) and generated UUIDs are
  passed in as explicit arguments.
* Whitespace (Rust char::is_whitespace) is modelled by the ASCII
  whitespace class, which is exact on every string the program stores in
  searchable_phone (digits, plus signs and spaces).
-/

namespace Setu

-- ── Generic character-list helpers ──────────────────────────────────────

/-- Replace every occurrence of the character c by the character d.
Models Rust str::replace with a one-character pattern and a one-character
replacement (used for the slash and underscore swaps in server.rs and for
the UID line in vcard.rs). -/
def mapChar (c d : Char) (l : List Char) : List Char :=
  l.map (fun x => if x = c then d else x)

/-- Replace every occurrence of the character c by the string r.
Models Rust str::replace with a one-character pattern (used by the vCard
escape function, whose replacements are two characters long). -/
def replaceChar (c : Char) (r : List Char) (l : List Char) : List Char :=
  l.flatMap (fun x => if x = c then r else [x])

/-- Boolean substring test: needle occurs contiguously inside hay.
Models Rust str::contains with a literal pattern. -/
def isSubstringOf : List Char → List Char → Bool
  | needle, [] => needle.isEmpty
  | needle, c :: t => needle.isPrefixOf (c :: t) || isSubstringOf needle t

/-- Worker for splitWhitespaceL: cur is the current in-progress token,
in reverse order. -/
def splitWsGo (cur : List Char) : List Char → List (List Char)
  | [] => if cur.isEmpty then [] else [cur.reverse]
  | c :: cs =>
    if c.isWhitespace then
      if cur.isEmpty then splitWsGo [] cs else cur.reverse :: splitWsGo [] cs
    else splitWsGo (c :: cur) cs

/-- Models Rust str::split_whitespace: the maximal non-whitespace tokens,
in order, with no empty tokens. -/
def splitWhitespaceL (l : List Char) : List (List Char) :=
  splitWsGo [] l

/-- SQLite LIKE matching, as used by the WHERE clause of search_by_phone:
the percent sign matches any character sequence (tried against every
tail of the subject), the underscore matches any single character, and
every other character matches itself up to the ASCII case folding SQLite
applies to LIKE operands. -/
def likeMatch : List Char → List Char → Bool
  | [], s => s.isEmpty
  | p :: ps, s =>
    if p = '%' then s.tails.any (fun t => likeMatch ps t)
    else
      match s with
      | [] => false
      | c :: s' =>
        if p = '_' then likeMatch ps s'
        else (p.toLower = c.toLower) && likeMatch ps s'

-- ── db.rs: contacts table and sync metadata ─────────────────────────────

/-- One row of the contacts table (db.rs, CREATE TABLE contacts). -/
structure Contact where
  resource_name : String
  etag : String
  display_name : String
  vcard : String
  searchable_phone : String
  updated_at : String
deriving DecidableEq, Repr

/-- The database state: the contacts table plus the sync_metadata
singleton row (db.rs). -/
structure Store where
  contacts : List Contact
  sync_token : Option String
  last_sync : Option String
deriving DecidableEq, Repr

/-- The empty store, as created by the schema migration on first open. -/
def Store.empty : Store :=
  { contacts := [], sync_token := none, last_sync := none }

/-- Byte order (equivalently code-point order) on strings: the BINARY
collation SQLite uses for ORDER BY display_name. -/
def charListLt : List Char → List Char → Bool
  | [], [] => false
  | [], _ :: _ => true
  | _ :: _, [] => false
  | a :: as, b :: bs =>
    if a.toNat < b.toNat then true
    else if a.toNat = b.toNat then charListLt as bs
    else false

/-- Insert a row into a list that is sorted by display_name, keeping the
sort stable. -/
def insertByName (c : Contact) : List Contact → List Contact
  | [] => [c]
  | d :: ds =>
    if charListLt c.display_name.data d.display_name.data then c :: d :: ds
    else d :: insertByName c ds

/-- Models SELECT ... ORDER BY display_name over the contacts table. -/
def orderByName (l : List Contact) : List Contact :=
  l.foldr insertByName []

/-- db.rs normalize_phone, iteration worker: the first argument is the
enumeration index of the character under inspection. -/
def normGo : Nat → List Char → List Char
  | _, [] => []
  | i, c :: cs =>
    if c.isDigit then c :: normGo (i + 1) cs
    else if c = '+' ∧ i = 0 then c :: normGo (i + 1) cs
    else normGo (i + 1) cs

/-- db.rs normalize_phone: keep ASCII digits, and keep a plus sign only
when it is the character at enumeration index 0. -/
def normalize_phone (raw : String) : String :=
  String.mk (normGo 0 raw.data)

/-- db.rs upsert_contact: INSERT ... ON CONFLICT(resource_name) DO UPDATE.
A conflicting row is updated in place; otherwise the row is appended.
The now argument stands for the datetime value SQLite computes. -/
def upsert_contact (st : Store) (resource_name etag display_name vcard searchable_phone now : String) : Store :=
  let row : Contact :=
    { resource_name := resource_name, etag := etag, display_name := display_name,
      vcard := vcard, searchable_phone := searchable_phone, updated_at := now }
  if st.contacts.any (fun c => c.resource_name = resource_name) then
    { st with contacts := st.contacts.map (fun c => if c.resource_name = resource_name then row else c) }
  else
    { st with contacts := st.contacts ++ [row] }

/-- db.rs delete_contact: DELETE FROM contacts WHERE resource_name = ?1. -/
def delete_contact (st : Store) (resource_name : String) : Store :=
  { st with contacts := st.contacts.filter (fun c => ¬ c.resource_name = resource_name) }

/-- db.rs get_sync_token. -/
def get_sync_token (st : Store) : Option String :=
  st.sync_token

/-- db.rs set_sync_token: also refreshes last_sync with the current time. -/
def set_sync_token (st : Store) (token now : String) : Store :=
  { st with sync_token := some token, last_sync := some now }

/-- db.rs get_contact: SELECT etag, vcard WHERE resource_name = ?1. -/
def get_contact (st : Store) (resource_name : String) : Option (String × String) :=
  (st.contacts.find? (fun c => c.resource_name = resource_name)).map
    (fun c => (c.etag, c.vcard))

/-- db.rs all_contacts: SELECT resource_name, etag, vcard ORDER BY
display_name. -/
def all_contacts (st : Store) : List (String × String × String) :=
  (orderByName st.contacts).map (fun c => (c.resource_name, c.etag, c.vcard))

/-- Stage-2 refinement predicate of db.rs search_by_phone: some
space-separated token of searchable_phone, once its leading plus signs
are stripped, ends with the query digits, or the query digits end with
it. -/
def suffixTokenMatch (searchable query_digits : List Char) : Bool :=
  (splitWhitespaceL searchable).any fun stored =>
    let stored_digits := stored.dropWhile (· == '+')
    query_digits.isSuffixOf stored_digits || stored_digits.isSuffixOf query_digits

/-- db.rs search_by_phone: guard against empty or all-plus queries, run
the LIKE pre-filter over the rows ordered by display_name, then keep the
rows passing the token suffix refinement, returning
(resource_name, etag, vcard) triples. -/
def search_by_phone (st : Store) (normalized_number : String) : List (String × String × String) :=
  if normalized_number = "" then []
  else if (normalized_number.data.dropWhile (· == '+')).isEmpty then []
  else
    ((((orderByName st.contacts).filter
        (fun c => likeMatch
          ('%' :: (normalized_number.data.dropWhile (· == '+') ++ ['%']))
          c.searchable_phone.data)).filter
      (fun c => suffixTokenMatch c.searchable_phone.data
        (normalized_number.data.dropWhile (· == '+')))).map
      (fun c => (c.resource_name, c.etag, c.vcard)))

/-- Modelled from the wording of claim C1 (a refinement twin, not from
the source): return the empty list when the query is empty or has only
plus signs, otherwise exactly the rows, ordered by display_name, whose
searchable_phone contains the stripped query digits as a substring and
which pass the token suffix test. -/
def search_by_phone_spec (st : Store) (q : String) : List (String × String × String) :=
  if q.data.all (· == '+') then []
  else
    ((orderByName st.contacts).filter
      (fun c => isSubstringOf (q.data.dropWhile (· == '+')) c.searchable_phone.data &&
        suffixTokenMatch c.searchable_phone.data (q.data.dropWhile (· == '+')))).map
      (fun c => (c.resource_name, c.etag, c.vcard))

-- ── server.rs: href and resource-name helpers ───────────────────────────

/-- Worker for Rust trim_end_matches(".vcf"): the input is the string in
reverse order, and every leading reversed ".vcf" block is removed. -/
def stripRevVcf : List Char → List Char
  | 'f' :: 'c' :: 'v' :: '.' :: rest => stripRevVcf rest
  | l => l

/-- server.rs id_to_resource_name: strip every trailing ".vcf" repetition
and turn underscores back into slashes. -/
def id_to_resource_name (id : String) : String :=
  String.mk (mapChar '_' '/' (stripRevVcf id.data.reverse).reverse)

/-- The id part of a contact href: the resource name with slashes
replaced by underscores, plus the fixed ".vcf" suffix (server.rs
contact_href before the route directory is prepended). -/
def contact_id (resource_name : String) : String :=
  String.mk (mapChar '/' '_' resource_name.data) ++ ".vcf"

/-- server.rs contact_href: the full CardDAV href of a contact. -/
def contact_href (resource_name : String) : String :=
  "/addressbook/" ++ contact_id resource_name

-- ── google_people1 Person model (the fields the program reads) ──────────

/-- A name entry of a Google Person (google_people1::api::Name), with the
fields vcard.rs reads. The honorific_pre field models the Rust field
honorific_prefix. -/
structure PName where
  display_name : Option String
  family_name : Option String
  given_name : Option String
  middle_name : Option String
  honorific_pre : Option String
  honorific_suffix : Option String
deriving DecidableEq, Repr

/-- google_people1::api::EmailAddress, fields read by vcard.rs. -/
structure PEmail where
  value : Option String
  type_ : Option String
deriving DecidableEq, Repr

/-- google_people1::api::PhoneNumber, fields read by vcard.rs and the
phone normalization paths. -/
structure PPhone where
  value : Option String
  type_ : Option String
deriving DecidableEq, Repr

/-- google_people1::api::Address, fields read by vcard.rs. -/
structure PAddress where
  street_address : Option String
  city : Option String
  region : Option String
  postal_code : Option String
  country : Option String
  type_ : Option String
deriving DecidableEq, Repr

/-- google_people1::api::Organization, fields read by vcard.rs. -/
structure POrganization where
  name : Option String
  title : Option String
deriving DecidableEq, Repr

/-- google_people1::api::Date (year, month, day as optional i32). -/
structure PDate where
  year : Option Int
  month : Option Int
  day : Option Int
deriving DecidableEq, Repr

/-- google_people1::api::Birthday, field read by vcard.rs. -/
structure PBirthday where
  date : Option PDate
deriving DecidableEq, Repr

/-- google_people1::api::Photo, fields read by vcard.rs. -/
structure PPhoto where
  url : Option String
  default : Option Bool
deriving DecidableEq, Repr

/-- google_people1::api::PersonMetadata, field read by sync.rs. -/
structure PMetadata where
  deleted : Option Bool
deriving DecidableEq, Repr

/-- google_people1::api::Person, restricted to the fields the program
reads. Every field is optional, as in the Rust API binding. -/
structure Person where
  resource_name : Option String
  etag : Option String
  metadata : Option PMetadata
  names : Option (List PName)
  email_addresses : Option (List PEmail)
  phone_numbers : Option (List PPhone)
  addresses : Option (List PAddress)
  organizations : Option (List POrganization)
  birthdays : Option (List PBirthday)
  photos : Option (List PPhoto)
deriving DecidableEq, Repr

/-- A Person with every field absent (Person::default()). -/
def Person.default : Person :=
  { resource_name := none, etag := none, metadata := none, names := none,
    email_addresses := none, phone_numbers := none, addresses := none,
    organizations := none, birthdays := none, photos := none }

-- ── vcard.rs: the vCard 3.0 codec ───────────────────────────────────────

/-- vcard.rs escape: backslash, semicolon and comma are backslash-escaped
and a line feed becomes the two characters backslash-n.  The four
replacements are applied in the order of the source. -/
def escape (s : String) : String :=
  String.mk
    (replaceChar '\n' ['\\', 'n']
      (replaceChar ',' ['\\', ',']
        (replaceChar ';' ['\\', ';']
          (replaceChar '\\' ['\\', '\\'] s.data))))

/-- Rust str::trim (whitespace modelled as ASCII). -/
def trimEnds (l : List Char) : List Char :=
  ((l.dropWhile Char.isWhitespace).reverse.dropWhile Char.isWhitespace).reverse

/-- The digit character of n modulo 10. -/
def digitChar (n : Nat) : Char :=
  match n % 10 with
  | 0 => '0' | 1 => '1' | 2 => '2' | 3 => '3' | 4 => '4'
  | 5 => '5' | 6 => '6' | 7 => '7' | 8 => '8' | _ => '9'

/-- Decimal digits of a natural number, most significant first.  The
first argument is recursion fuel, always called with fuel at least the
number itself so that the digits are complete. -/
def natToCharsF : Nat → Nat → List Char
  | 0, n => [digitChar n]
  | fuel + 1, n => if n < 10 then [digitChar n] else natToCharsF fuel (n / 10) ++ [digitChar n]

/-- Decimal digits of a natural number, most significant first. -/
def natToChars (n : Nat) : List Char :=
  natToCharsF n n

/-- Rust formatting of an i32 with a zero-pad width w, as in the BDAY
line: the sign is emitted first and the digits are padded to fill the
remaining width. -/
def padNum (w : Nat) (n : Int) : String :=
  let digits := natToChars n.natAbs
  let pad := List.replicate (w - (if n < 0 then 1 else 0) - digits.length) '0'
  if n < 0 then String.mk ('-' :: (pad ++ digits)) else String.mk (pad ++ digits)

/-- vcard.rs, N and FN lines: built from the first name entry. -/
def nameLines (n : PName) : List String :=
  let family := n.family_name.getD ""
  let given := n.given_name.getD ""
  let middle := n.middle_name.getD ""
  let pre := n.honorific_pre.getD ""
  let suffix := n.honorific_suffix.getD ""
  let nLine := "N:" ++ escape family ++ ";" ++ escape given ++ ";" ++ escape middle
    ++ ";" ++ escape pre ++ ";" ++ escape suffix
  let display := n.display_name.getD ""
  let fnLine :=
    if ¬ display = "" then "FN:" ++ escape display
    else "FN:" ++ escape (String.mk (trimEnds (given ++ " " ++ family).data))
  [nLine, fnLine]

/-- vcard.rs, one EMAIL line per non-empty email value. -/
def emailLines (emails : List PEmail) : List String :=
  emails.foldr
    (fun email acc =>
      let addr := email.value.getD ""
      if addr = "" then acc
      else
        let type_param :=
          if email.type_ = some "home" then "HOME"
          else if email.type_ = some "work" then "WORK"
          else "INTERNET"
        ("EMAIL;TYPE=" ++ type_param ++ ":" ++ addr) :: acc)
    []

/-- vcard.rs, one TEL line per non-empty phone value. -/
def telLines (phones : List PPhone) : List String :=
  phones.foldr
    (fun phone acc =>
      let number := phone.value.getD ""
      if number = "" then acc
      else
        let type_param :=
          if phone.type_ = some "mobile" then "CELL"
          else if phone.type_ = some "home" then "HOME"
          else if phone.type_ = some "work" then "WORK"
          else if phone.type_ = some "homeFax" ∨ phone.type_ = some "workFax" then "FAX"
          else "VOICE"
        ("TEL;TYPE=" ++ type_param ++ ":" ++ number) :: acc)
    []

/-- vcard.rs, one ADR line per address. -/
def adrLines (addrs : List PAddress) : List String :=
  addrs.map fun addr =>
    let street := addr.street_address.getD ""
    let city := addr.city.getD ""
    let region := addr.region.getD ""
    let postal := addr.postal_code.getD ""
    let country := addr.country.getD ""
    let type_param :=
      if addr.type_ = some "home" then "HOME"
      else if addr.type_ = some "work" then "WORK"
      else "HOME"
    "ADR;TYPE=" ++ type_param ++ ":;;" ++ escape street ++ ";" ++ escape city
      ++ ";" ++ escape region ++ ";" ++ escape postal ++ ";" ++ escape country

/-- vcard.rs, ORG and TITLE lines from the first organization. -/
def orgLines (orgs : List POrganization) : List String :=
  match orgs.head? with
  | none => []
  | some org =>
    (match org.name with
     | some name => ["ORG:" ++ escape name]
     | none => []) ++
    (match org.title with
     | some title => ["TITLE:" ++ escape title]
     | none => [])

/-- vcard.rs, BDAY line from the first birthday with a usable date. -/
def bdayLines (bdays : List PBirthday) : List String :=
  match bdays.head? with
  | none => []
  | some bday =>
    match bday.date with
    | none => []
    | some date =>
      let y := date.year.getD 0
      let m := date.month.getD 0
      let d := date.day.getD 0
      if m > 0 ∧ d > 0 then
        if y > 0 then ["BDAY:" ++ padNum 4 y ++ "-" ++ padNum 2 m ++ "-" ++ padNum 2 d]
        else ["BDAY:--" ++ padNum 2 m ++ "-" ++ padNum 2 d]
      else []

/-- vcard.rs, PHOTO line from the first photo, skipped when the photo is
flagged as the default silhouette. -/
def photoLines (photos : List PPhoto) : List String :=
  match photos.head? with
  | none => []
  | some photo =>
    match photo.url with
    | none => []
    | some url =>
      if photo.default.getD false then []
      else ["PHOTO;VALUE=URI:" ++ url]

/-- Join vCard lines with CRLF and terminate the whole card with a final
CRLF (vcard.rs: lines.join plus a trailing CRLF). -/
def joinCrlf : List String → String
  | [] => "\r\n"
  | l :: ls =>
    match ls with
    | [] => l ++ "\r\n"
    | _ :: _ => l ++ "\r\n" ++ joinCrlf ls

/-- The lines vector vcard.rs person_to_vcard accumulates before
joining, in push order. -/
def vcardLines (person : Person) (now : String) : List String :=
  ["BEGIN:VCARD", "VERSION:3.0",
    "UID:" ++ String.mk (mapChar '/' '-' (person.resource_name.getD "unknown").data)]
  ++ (match person.names with
      | some names =>
        match names.head? with
        | some n => nameLines n
        | none => []
      | none => ["N:;;;;", "FN:"])
  ++ (match person.email_addresses with
      | some emails => emailLines emails
      | none => [])
  ++ (match person.phone_numbers with
      | some phones => telLines phones
      | none => [])
  ++ (match person.addresses with
      | some addrs => adrLines addrs
      | none => [])
  ++ (match person.organizations with
      | some orgs => orgLines orgs
      | none => [])
  ++ (match person.birthdays with
      | some bdays => bdayLines bdays
      | none => [])
  ++ (match person.photos with
      | some photos => photoLines photos
      | none => [])
  ++ ["REV:" ++ now, "END:VCARD"]

/-- vcard.rs person_to_vcard.  The now argument is the formatted UTC
timestamp chrono produces for the REV line. -/
def person_to_vcard (person : Person) (now : String) : String :=
  joinCrlf (vcardLines person now)

/-- vcard.rs display_name: the display name of the first name entry, or
the empty string. -/
def display_name (person : Person) : String :=
  ((person.names.bind (fun names => names.head?)).bind
    (fun n => n.display_name)).getD ""

-- ── sync.rs and server.rs: the two write paths ──────────────────────────

/-- Rust slice join with a separator string. -/
def joinSep (sep : String) : List String → String
  | [] => ""
  | s :: rest =>
    match rest with
    | [] => s
    | _ :: _ => s ++ sep ++ joinSep sep rest

/-- sync.rs normalize_phones: all phone values of the person, normalized,
empties dropped, joined with single spaces. -/
def normalize_phones (person : Person) : String :=
  match person.phone_numbers with
  | none => ""
  | some phones =>
    joinSep " "
      (((phones.filterMap (fun p => p.value)).map normalize_phone).filter
        (fun s => ¬ s = ""))

/-- sync.rs store_person: skip (with a warning) a person without a
resource_name, otherwise upsert with the etag defaulted to the empty
string. -/
def store_person (st : Store) (person : Person) (now : String) : Store :=
  match person.resource_name with
  | none => st
  | some resource_name =>
    upsert_contact st resource_name (person.etag.getD "") (display_name person)
      (person_to_vcard person now) (normalize_phones person) now

/-- server.rs cache_person_to_conn: the reactive write path.  The
resource name falls back to "unknown", the etag falls back to the
freshly generated UUID string passed as fresh_uuid, and the stored
triple is returned together with the new store. -/
def cache_person_to_conn (st : Store) (person : Person) (fresh_uuid now : String) :
    Store × (String × String × String) :=
  let resource_name := person.resource_name.getD "unknown"
  let etag := person.etag.getD fresh_uuid
  let dn := display_name person
  let vcard_text := person_to_vcard person now
  let searchable_phone := normalize_phones person
  (upsert_contact st resource_name etag dn vcard_text searchable_phone now,
    (resource_name, etag, vcard_text))

-- ── sync.rs run_one_sync: error dispatch of one sync cycle ──────────────

/-- The externally visible steps a sync cycle can take, in order. -/
inductive SyncStep where
  | incremental (token : String)
  | fullSync
deriving DecidableEq, Repr

/-- sync.rs run_one_sync, abstracted over the outside world: authed is
the auth::ensure_authenticated check, stored_token the sync token read
from the store, and inc and full give the outcomes of incremental_sync
and full_sync (the error value is the rendered message string).  The
result records the steps attempted in order, and the overall outcome. -/
def run_one_sync (authed : Bool) (stored_token : Option String)
    (inc : String → Except String Unit) (full : Except String Unit) :
    List SyncStep × Except String Unit :=
  if ¬ authed then ([], Except.error "not authenticated — skipping sync")
  else
    match stored_token with
    | some token =>
      match inc token with
      | Except.ok () => ([SyncStep.incremental token], Except.ok ())
      | Except.error msg =>
        if isSubstringOf "410".data msg.data ||
            isSubstringOf "Sync token".data msg.data ||
            isSubstringOf "expired".data msg.data then
          ([SyncStep.incremental token, SyncStep.fullSync], full)
        else
          ([SyncStep.incremental token], Except.error msg)
    | none => ([SyncStep.fullSync], full)

-- ── server.rs basic_auth_middleware ─────────────────────────────────────

/-- The part of an HTTP response the middleware claim observes. -/
structure MwResponse where
  status : Nat
  www_authenticate : Option String
deriving DecidableEq, Repr

/-- Strip the "Basic " scheme marker from the Authorization header value
(Rust str::strip_prefix with that literal). -/
def stripBasic (s : List Char) : Option (List Char) :=
  match s with
  | 'B' :: 'a' :: 's' :: 'i' :: 'c' :: ' ' :: rest => some rest
  | _ => none

/-- Rust str::split_once at the first occurrence of the character c. -/
def splitOnceAt (c : Char) : List Char → Option (List Char × List Char)
  | [] => none
  | x :: xs =>
    if x = c then some ([], xs)
    else (splitOnceAt c xs).map (fun p => (x :: p.1, p.2))

/-- The nested if-let chain of server.rs basic_auth_middleware that
decides whether the request reaches the inner handler: the header is
present, starts with the Basic scheme marker, base64-decodes to UTF-8
text, splits at a first colon, and the part after that colon equals the
expected password (the part before it, the user name, is ignored). -/
def authorization_accepted (decode : String → Option String)
    (expected_pw : String) (auth_header : Option String) : Bool :=
  match auth_header with
  | none => false
  | some auth_str =>
    match stripBasic auth_str.data with
    | none => false
    | some encoded =>
      match decode (String.mk encoded) with
      | none => false
      | some decoded =>
        match splitOnceAt ':' decoded.data with
        | none => false
        | some (_user, password) => password = expected_pw.data

/-- server.rs basic_auth_middleware, abstracted over the outside world:
decode is the base64-decode-to-UTF-8 function of the external base64
crate, vault_pw the outcome of reading the CardDAV password from the OS
keyring for this request, method the request method and auth_header the
value of the Authorization header when present.  The result is none when
the request is passed on to the inner handler, and the blocking response
otherwise. -/
def basic_auth_middleware (decode : String → Option String)
    (vault_pw : Except Unit String) (method : String)
    (auth_header : Option String) : Option MwResponse :=
  if method = "OPTIONS" then none
  else
    match vault_pw with
    | Except.error _ => some { status := 500, www_authenticate := none }
    | Except.ok expected_pw =>
      if authorization_accepted decode expected_pw auth_header then none
      else some { status := 401, www_authenticate := some "Basic realm=\"Setu CardDAV\"" }

-- ── Observation helpers for the claims ──────────────────────────────────

/-- True when the character list uses CRLF exclusively: every carriage
return is immediately followed by a line feed, and every line feed is
immediately preceded by a carriage return. -/
def crlfOnly : List Char → Bool
  | [] => true
  | c :: rest =>
    if c = '\r' then
      match rest with
      | [] => false
      | c' :: rest' => if c' = '\n' then crlfOnly rest' else false
    else
      (¬ c = '\n') && crlfOnly rest

/-- No carriage return occurs in the string. -/
def noCR (s : String) : Bool :=
  s.data.all (fun c => ¬ c = '\r')

/-- Propositional form of freedom from both CR and LF, used by the
line-cleanliness lemmas. -/
abbrev cleanStr (s : String) : Prop :=
  ∀ c ∈ s.data, ¬ c = '\r' ∧ ¬ c = '\n'

/-- Neither carriage return nor line feed occurs in the string. -/
def noCRLF (s : String) : Bool :=
  s.data.all (fun c => ¬ c = '\r' ∧ ¬ c = '\n')

/-- The per-field cleanliness condition under which person_to_vcard can
produce pure-CRLF output: fields that pass through escape (which rewrites
a line feed but not a carriage return) must be free of carriage returns,
and fields the codec emits verbatim (UID source, email values, phone
values, photo URLs) must be free of both control characters. -/
def personClean (p : Person) : Bool :=
  noCRLF (p.resource_name.getD "unknown") &&
  (match p.names with
   | none => true
   | some names => names.all fun n =>
     noCR (n.display_name.getD "") && noCR (n.family_name.getD "") &&
     noCR (n.given_name.getD "") && noCR (n.middle_name.getD "") &&
     noCR (n.honorific_pre.getD "") && noCR (n.honorific_suffix.getD "")) &&
  (match p.email_addresses with
   | none => true
   | some emails => emails.all fun e => noCRLF (e.value.getD "")) &&
  (match p.phone_numbers with
   | none => true
   | some phones => phones.all fun ph => noCRLF (ph.value.getD "")) &&
  (match p.addresses with
   | none => true
   | some addrs => addrs.all fun a =>
     noCR (a.street_address.getD "") && noCR (a.city.getD "") &&
     noCR (a.region.getD "") && noCR (a.postal_code.getD "") &&
     noCR (a.country.getD "")) &&
  (match p.organizations with
   | none => true
   | some orgs => orgs.all fun o =>
     noCR (o.name.getD "") && noCR (o.title.getD "")) &&
  (match p.photos with
   | none => true
   | some photos => photos.all fun ph => noCRLF (ph.url.getD ""))

-- ── Concrete fixtures used by counterexamples and witnesses ─────────────

/-- A store with one contact whose searchable_phone is "5X5 5": the LIKE
pre-filter pattern %5_5% matches it through the underscore wildcard even
though "5_5" is not a literal substring, and the token "5" passes the
suffix refinement. -/
def cexStore : Store :=
  { contacts := [{ resource_name := "people/cX", etag := "e", display_name := "A",
                   vcard := "v", searchable_phone := "5X5 5", updated_at := "t" }],
    sync_token := none, last_sync := none }

/-- A small two-row store for witnesses. -/
def wStore : Store :=
  { contacts := [{ resource_name := "people/c1", etag := "e1", display_name := "Alice",
                   vcard := "vc1", searchable_phone := "+15550100 5550200", updated_at := "t1" },
                 { resource_name := "people/c2", etag := "e2", display_name := "Bob",
                   vcard := "vc2", searchable_phone := "5559999", updated_at := "t2" }],
    sync_token := some "tok", last_sync := some "ls" }

/-- An upstream record that carries no resource_name. -/
def personNoResourceName : Person :=
  { Person.default with etag := some "eX" }

/-- An upstream record whose etag is present but empty. -/
def personEmptyEtag : Person :=
  { Person.default with resource_name := some "people/cE", etag := some "" }

/-- An upstream record with a line feed inside a phone value: the TEL
line is emitted verbatim, so the line feed survives into the vCard. -/
def personBadPhone : Person :=
  { Person.default with
      resource_name := some "people/cBad",
      phone_numbers := some [{ value := some "5\n5", type_ := none }] }

/-- An upstream record with a carriage return inside a family name: the
escape function rewrites line feeds but not carriage returns, so the
carriage return survives into the N line. -/
def personBadName : Person :=
  { Person.default with
      resource_name := some "people/cCR",
      names := some [{ display_name := none, family_name := some "a\rb",
                       given_name := none, middle_name := none,
                       honorific_pre := none, honorific_suffix := none }] }

/-- A fully clean record used by witnesses. -/
def personGood : Person :=
  { Person.default with
      resource_name := some "people/c9",
      names := some [{ display_name := some "Eve Searcher", family_name := some "Searcher",
                       given_name := some "Eve", middle_name := none,
                       honorific_pre := none, honorific_suffix := none }],
      phone_numbers := some [{ value := some "+1 (555) 987-6543", type_ := some "mobile" }] }

-- ── Helper lemmas ───────────────────────────────────────────────────────

theorem normGo_succ (cs : List Char) (i : Nat) :
    normGo (i + 1) cs = cs.filter Char.isDigit := by
  induction cs generalizing i with
  | nil => rfl
  | cons c cs ih =>
    by_cases hc : c.isDigit
    · simp [normGo, hc, ih, List.filter_cons]
    · have hni : ¬ (c = '+' ∧ i + 1 = 0) := by
        rintro ⟨-, h⟩
        omega
      simp [normGo, hc, hni, ih, List.filter_cons]

theorem stripRevVcf_cons (l : List Char) :
    stripRevVcf ('f' :: 'c' :: 'v' :: '.' :: l) = stripRevVcf l := rfl

-- ── Claim C2 ────────────────────────────────────────────────────────────

/-- Claim C2: normalize_phone is pure and returns exactly the ASCII
digits of its input in their original order, with a plus sign kept if
and only if one occupies position 0 of the raw string; the three
documented examples evaluate accordingly. -/
theorem normalize_phone_characterization :
    (∀ raw : String, normalize_phone raw =
      String.mk ((if raw.data.head? = some '+' then ['+'] else []) ++
        raw.data.filter Char.isDigit)) ∧
    normalize_phone "+1 (555) 012-3456" = "+15550123456" ∧
    normalize_phone "555.012.3456" = "5550123456" ∧
    normalize_phone "1+2" = "12" := by
  refine ⟨?_, by decide, by decide, by decide⟩
  intro raw
  unfold normalize_phone
  congr 1
  cases hd : raw.data with
  | nil => rfl
  | cons c cs =>
    by_cases hc : c.isDigit
    · have hne : ¬ c = '+' := by
        rintro rfl
        exact absurd hc (by decide)
      simp [normGo, hc, hne, normGo_succ, List.filter_cons]
    · by_cases hp : c = '+'
      · subst hp
        simp [normGo, hc, normGo_succ, List.filter_cons]
      · simp [normGo, hc, hp, normGo_succ, List.filter_cons]

-- ── Claim C10 ───────────────────────────────────────────────────────────

/-- Claim C10: id_to_resource_name strips every trailing repetition of
".vcf" (appending ".vcf" to any id never changes the result) and turns
every underscore into a slash, so the two distinct ids people_c1.vcf and
people_c1.vcf.vcf resolve to the same resource name people/c1. -/
theorem id_to_resource_name_behavior :
    (∀ s : String, id_to_resource_name (s ++ ".vcf") = id_to_resource_name s) ∧
    id_to_resource_name "people_c1.vcf" = "people/c1" ∧
    id_to_resource_name "people_c1.vcf.vcf" = "people/c1" ∧
    id_to_resource_name "a_b_c.vcf" = "a/b/c" := by
  refine ⟨?_, by decide, by decide, by decide⟩
  intro s
  suffices h : stripRevVcf ((s ++ ".vcf").data.reverse) = stripRevVcf s.data.reverse by
    unfold id_to_resource_name
    rw [h]
  rw [String.data_append, List.reverse_append]
  exact stripRevVcf_cons _

-- ── Claim C9 ────────────────────────────────────────────────────────────

theorem filter_ne_map_upsert (l : List Contact) (row : Contact) (rn : String)
    (hrow : row.resource_name = rn) :
    ((l.map (fun c => if c.resource_name = rn then row else c)).filter
        (fun c => ¬ c.resource_name = rn)) =
      l.filter (fun c => ¬ c.resource_name = rn) := by
  induction l with
  | nil => rfl
  | cons c t ih =>
    by_cases hc : c.resource_name = rn
    · simp only [List.map_cons, if_pos hc, List.filter_cons]
      rw [if_neg (by simp [hrow]), if_neg (by simp [hc])]
      exact ih
    · simp only [List.map_cons, if_neg hc, List.filter_cons]
      rw [if_pos (by simp [hc]), if_pos (by simp [hc]), ih]

/-- Claim C9: upsert_contact and delete_contact touch at most the row
keyed by the given resource name: the sublist of rows with any other
resource name is unchanged (hence their etag, display_name, vcard,
searchable_phone and updated_at are unchanged), and the sync_metadata
singleton is unchanged. -/
theorem upsert_delete_frame (st : Store) (rn etag dn vc sp now : String) :
    ((upsert_contact st rn etag dn vc sp now).contacts.filter
        (fun c => ¬ c.resource_name = rn) =
      st.contacts.filter (fun c => ¬ c.resource_name = rn)) ∧
    (upsert_contact st rn etag dn vc sp now).sync_token = st.sync_token ∧
    (upsert_contact st rn etag dn vc sp now).last_sync = st.last_sync ∧
    ((delete_contact st rn).contacts.filter (fun c => ¬ c.resource_name = rn) =
      st.contacts.filter (fun c => ¬ c.resource_name = rn)) ∧
    (delete_contact st rn).sync_token = st.sync_token ∧
    (delete_contact st rn).last_sync = st.last_sync := by
  refine ⟨?_, ?_, ?_, ?_, ?_, ?_⟩
  · unfold upsert_contact
    by_cases h : st.contacts.any (fun c => c.resource_name = rn)
    · rw [if_pos h]
      exact filter_ne_map_upsert st.contacts _ rn rfl
    · rw [if_neg h]
      show List.filter _ (st.contacts ++ [_]) = _
      rw [List.filter_append]
      simp [List.filter_cons]
  · unfold upsert_contact
    by_cases h : st.contacts.any (fun c => c.resource_name = rn) <;> simp [h]
  · unfold upsert_contact
    by_cases h : st.contacts.any (fun c => c.resource_name = rn) <;> simp [h]
  · unfold delete_contact
    simp only [List.filter_filter]
    apply List.filter_congr
    intro c _
    simp [Bool.and_self]
  · rfl
  · rfl

-- ── Claim C6 ────────────────────────────────────────────────────────────

/-- Claim C6: with a stored sync token, an incremental-sync error whose
rendered message contains 410, Sync token or expired makes the cycle
fall through to a full sync; any other incremental-sync error aborts the
cycle with that error and no full sync is attempted. -/
theorem sync_error_dispatch (tok msg : String) (inc : String → Except String Unit)
    (full : Except String Unit) (hinc : inc tok = Except.error msg) :
    ((isSubstringOf "410".data msg.data || isSubstringOf "Sync token".data msg.data ||
        isSubstringOf "expired".data msg.data) = true →
      run_one_sync true (some tok) inc full =
        ([SyncStep.incremental tok, SyncStep.fullSync], full)) ∧
    ((isSubstringOf "410".data msg.data || isSubstringOf "Sync token".data msg.data ||
        isSubstringOf "expired".data msg.data) = false →
      run_one_sync true (some tok) inc full =
        ([SyncStep.incremental tok], Except.error msg)) := by
  constructor <;> intro h <;> simp [run_one_sync, hinc, h]

/-- Witness for sync_error_dispatch: a rendered 410 message triggers the
full-sync fallback, and an unrelated transport error aborts the cycle. -/
theorem sync_error_dispatch_witness :
    run_one_sync true (some "T1")
        (fun _ => Except.error "People API incremental connections_list: HTTP 410 Gone")
        (Except.ok ()) = ([SyncStep.incremental "T1", SyncStep.fullSync], Except.ok ()) ∧
    run_one_sync true (some "T1") (fun _ => Except.error "connection reset by peer")
        (Except.ok ()) = ([SyncStep.incremental "T1"],
          Except.error "connection reset by peer") := by
  constructor
  · exact (sync_error_dispatch "T1" "People API incremental connections_list: HTTP 410 Gone"
      (fun _ => Except.error "People API incremental connections_list: HTTP 410 Gone")
      (Except.ok ()) rfl).1 (by decide)
  · exact (sync_error_dispatch "T1" "connection reset by peer"
      (fun _ => Except.error "connection reset by peer")
      (Except.ok ()) rfl).2 (by decide)

-- ── Claim C5 ────────────────────────────────────────────────────────────

theorem stripRevVcf_of_no_vcf (l : List Char)
    (h : ∀ t, ¬ l = 'f' :: 'c' :: 'v' :: '.' :: t) : stripRevVcf l = l := by
  unfold stripRevVcf
  split
  next t => exact absurd rfl (h t)
  next => rfl

theorem mapChar_eq_char (c d x y : Char) (hyc : ¬ y = c) (hyd : ¬ y = d) :
    ((if x = c then d else x) = y) ↔ x = y := by
  by_cases hx : x = c
  · subst hx
    simp only [if_pos rfl]
    constructor
    · intro hdy
      exact absurd hdy.symm hyd
    · intro hxy
      exact absurd hxy.symm hyc
  · rw [if_neg hx]

theorem vcf_suffix_of_map (l : List Char)
    (h : ['.', 'v', 'c', 'f'] <:+ mapChar '/' '_' l) : ['.', 'v', 'c', 'f'] <:+ l := by
  obtain ⟨pre, hpre⟩ := h
  have hmap : List.map (fun x => if x = '/' then '_' else x) l = pre ++ ['.', 'v', 'c', 'f'] :=
    hpre.symm
  rw [List.map_eq_append_iff] at hmap
  obtain ⟨l₁, l₂, hl, h1, h2⟩ := hmap
  rcases l₂ with _ | ⟨a, _ | ⟨b, _ | ⟨c2, _ | ⟨d, rest⟩⟩⟩⟩
  · simp at h2
  · simp at h2
  · simp at h2
  · simp at h2
  · simp only [List.map_cons, List.cons.injEq] at h2
    obtain ⟨ha, hb, hc, hd, hrest⟩ := h2
    have hrest0 : rest = [] := by
      cases rest with
      | nil => rfl
      | cons x xs => simp at hrest
    have ha' : a = '.' := (mapChar_eq_char '/' '_' a '.' (by decide) (by decide)).mp ha
    have hb' : b = 'v' := (mapChar_eq_char '/' '_' b 'v' (by decide) (by decide)).mp hb
    have hc' : c2 = 'c' := (mapChar_eq_char '/' '_' c2 'c' (by decide) (by decide)).mp hc
    have hd' : d = 'f' := (mapChar_eq_char '/' '_' d 'f' (by decide) (by decide)).mp hd
    subst ha' hb' hc' hd' hrest0
    exact ⟨l₁, hl.symm⟩

/-- Claim C5 counterexample: the literal composition of the two
functions is not the identity even on the canonical resource name shape,
because contact_href prepends the route directory /addressbook/. -/
theorem contact_href_roundtrip_cex :
    ¬ id_to_resource_name (contact_href "people/c123") = "people/c123" ∧
    id_to_resource_name (contact_href "people/c123") = "/addressbook/people/c123" := by
  exact ⟨by decide, by decide⟩

/-- Claim C5 (amended): contact_href produces /addressbook/ followed by
the id (the resource name with slashes turned into underscores plus the
".vcf" suffix), and for every resource name that contains no underscore
and does not end in ".vcf" — which covers every observable upstream
resource name, of shape people/c123 — id_to_resource_name maps that id
back to the resource name. -/
theorem contact_href_roundtrip (r : String)
    (hu : ¬ '_' ∈ r.data) (hv : ¬ ['.', 'v', 'c', 'f'] <:+ r.data) :
    contact_href r = "/addressbook/" ++ contact_id r ∧
    id_to_resource_name (contact_id r) = r := by
  refine ⟨rfl, ?_⟩
  unfold id_to_resource_name contact_id
  have hdata : (String.mk (mapChar '/' '_' r.data) ++ ".vcf").data
      = mapChar '/' '_' r.data ++ ['.', 'v', 'c', 'f'] := by
    rw [String.data_append]
  rw [hdata, List.reverse_append]
  have hstep : stripRevVcf ('f' :: 'c' :: 'v' :: '.' :: (mapChar '/' '_' r.data).reverse)
      = (mapChar '/' '_' r.data).reverse := by
    rw [stripRevVcf_cons]
    apply stripRevVcf_of_no_vcf
    intro t ht
    apply hv
    apply vcf_suffix_of_map
    refine ⟨t.reverse, ?_⟩
    have := congrArg List.reverse ht
    rw [List.reverse_reverse] at this
    rw [this]
    simp
  show String.mk (mapChar '_' '/'
      (stripRevVcf ('f' :: 'c' :: 'v' :: '.' :: (mapChar '/' '_' r.data).reverse)).reverse) = r
  rw [hstep, List.reverse_reverse]
  have hco : mapChar '_' '/' (mapChar '/' '_' r.data) = r.data := by
    unfold mapChar
    rw [List.map_map]
    have : ∀ x ∈ r.data, ((fun x => if x = '_' then '/' else x) ∘
        fun x => if x = '/' then '_' else x) x = x := by
      intro x hx
      by_cases hxs : x = '/'
      · simp [hxs]
      · have hxu : ¬ x = '_' := fun hh => hu (hh ▸ hx)
        simp [hxs, hxu]
    calc List.map _ r.data = List.map id r.data := List.map_congr_left this
      _ = r.data := List.map_id r.data
  rw [hco]

/-- Witness for contact_href_roundtrip at the canonical resource name. -/
theorem contact_href_roundtrip_witness :
    contact_href "people/c123" = "/addressbook/" ++ contact_id "people/c123" ∧
    id_to_resource_name (contact_id "people/c123") = "people/c123" :=
  contact_href_roundtrip "people/c123" (by decide) (by decide)

-- ── Shared upsert lemmas ────────────────────────────────────────────────

theorem find?_map_upsert (l : List Contact) (row : Contact) (rn : String)
    (hrow : row.resource_name = rn)
    (hany : l.any (fun c => c.resource_name = rn) = true) :
    (l.map (fun c => if c.resource_name = rn then row else c)).find?
      (fun c => c.resource_name = rn) = some row := by
  induction l with
  | nil => simp at hany
  | cons c t ih =>
    by_cases hc : c.resource_name = rn
    · simp only [List.map_cons, if_pos hc]
      rw [List.find?_cons_of_pos _ (by simp [hrow])]
    · simp only [List.map_cons, if_neg hc]
      rw [List.find?_cons_of_neg _ (by simp [hc])]
      apply ih
      simp only [List.any_cons, hc] at hany
      simpa using hany

theorem find?_append_none {p : Contact → Bool} (l₁ l₂ : List Contact)
    (h : l₁.find? p = none) : (l₁ ++ l₂).find? p = l₂.find? p := by
  induction l₁ with
  | nil => rfl
  | cons c t ih =>
    rw [List.find?_cons] at h
    cases hp : p c with
    | true => rw [hp] at h; exact absurd h (by simp)
    | false =>
      rw [hp] at h
      rw [List.cons_append, List.find?_cons_of_neg _ (by simp [hp])]
      exact ih h

theorem get_contact_upsert_self (st : Store) (rn e d v s now : String) :
    get_contact (upsert_contact st rn e d v s now) rn = some (e, v) := by
  unfold get_contact upsert_contact
  by_cases h : st.contacts.any (fun c => c.resource_name = rn)
  · rw [if_pos h]
    show ((st.contacts.map _).find? _).map _ = _
    rw [find?_map_upsert st.contacts _ rn rfl h]
    rfl
  · rw [if_neg h]
    show ((st.contacts ++ [_]).find? _).map _ = _
    rw [find?_append_none]
    · rw [List.find?_cons_of_pos _ (by simp)]
      rfl
    · rw [List.find?_eq_none]
      intro c hc
      simp only [List.any_eq_true] at h
      push_neg at h
      simpa using h c hc

theorem keys_upsert (st : Store) (rn e d v s now r : String)
    (hr : r ∈ (upsert_contact st rn e d v s now).contacts.map (fun c => c.resource_name)) :
    r ∈ st.contacts.map (fun c => c.resource_name) ∨ r = rn := by
  unfold upsert_contact at hr
  by_cases h : st.contacts.any (fun c => c.resource_name = rn)
  · rw [if_pos h] at hr
    simp only [List.map_map, List.mem_map, Function.comp] at hr
    obtain ⟨c, hcmem, hcr⟩ := hr
    by_cases hc : c.resource_name = rn
    · rw [if_pos hc] at hcr
      exact Or.inr hcr.symm
    · rw [if_neg hc] at hcr
      exact Or.inl (List.mem_map.mpr ⟨c, hcmem, hcr⟩)
  · rw [if_neg h] at hr
    simp only [List.map_append, List.mem_append, List.map_cons, List.map_nil,
      List.mem_cons, List.not_mem_nil, or_false] at hr
    cases hr with
    | inl hl => exact Or.inl hl
    | inr hrr => exact Or.inr hrr

-- ── Claim C3 ────────────────────────────────────────────────────────────

/-- Claim C3 counterexample: the reactive caching path does not skip an
upstream record lacking a resource_name — it stores a row under the
locally invented identity "unknown", which upstream never issued. -/
theorem resource_name_provenance_cex :
    personNoResourceName.resource_name = none ∧
    (cache_person_to_conn Store.empty personNoResourceName "u0" "T").1.contacts.map
      (fun c => c.resource_name) = ["unknown"] :=
  ⟨rfl, by decide⟩

/-- Claim C3 (amended): the sync path skips (writes nothing for) an
upstream record lacking a resource_name; after either write path, every
stored resource name was already in the store or is the name issued by
upstream — except that the reactive REPORT-time caching path, unlike the
sync path, stores a record lacking a resource_name under the local
placeholder identity "unknown". -/
theorem resource_name_provenance (st : Store) (p : Person) (u now : String) :
    (p.resource_name = none → store_person st p now = st) ∧
    (∀ r, r ∈ (store_person st p now).contacts.map (fun c => c.resource_name) →
      r ∈ st.contacts.map (fun c => c.resource_name) ∨ p.resource_name = some r) ∧
    (∀ r, r ∈ (cache_person_to_conn st p u now).1.contacts.map (fun c => c.resource_name) →
      r ∈ st.contacts.map (fun c => c.resource_name) ∨ p.resource_name = some r ∨
        (p.resource_name = none ∧ r = "unknown")) := by
  cases hp : p.resource_name with
  | none =>
    refine ⟨fun _ => ?_, fun r hr => ?_, fun r hr => ?_⟩
    · unfold store_person
      rw [hp]
    · unfold store_person at hr
      rw [hp] at hr
      exact Or.inl hr
    · unfold cache_person_to_conn at hr
      rw [hp] at hr
      cases keys_upsert st _ _ _ _ _ _ r hr with
      | inl h => exact Or.inl h
      | inr h => exact Or.inr (Or.inr ⟨rfl, h⟩)
  | some rn =>
    refine ⟨fun hno => ?_, fun r hr => ?_, fun r hr => ?_⟩
    · exact absurd hno (by simp)
    · unfold store_person at hr
      rw [hp] at hr
      cases keys_upsert st _ _ _ _ _ _ r hr with
      | inl h => exact Or.inl h
      | inr h => exact Or.inr (by rw [h])
    · unfold cache_person_to_conn at hr
      rw [hp] at hr
      cases keys_upsert st _ _ _ _ _ _ r hr with
      | inl h => exact Or.inl h
      | inr h => exact Or.inr (Or.inl (by rw [h]; rfl))

/-- Witness for resource_name_provenance: the sync path leaves the store
untouched for a record without a resource_name. -/
theorem resource_name_provenance_witness :
    store_person wStore personNoResourceName "T" = wStore :=
  (resource_name_provenance wStore personNoResourceName "u0" "T").1 rfl

-- ── Claim C8 ────────────────────────────────────────────────────────────

/-- Claim C8 counterexample: an upstream record whose etag is present
but empty is cached by the reactive path with an empty etag, so not
every reactively written row has a non-empty etag. -/
theorem reactive_etag_cex :
    (cache_person_to_conn Store.empty personEmptyEtag "u0" "T").2.2.1 = "" ∧
    (cache_person_to_conn Store.empty personEmptyEtag "u0" "T").1.contacts.map
      (fun c => c.etag) = [""] :=
  ⟨by decide, by decide⟩

/-- Claim C8 (amended): the reactive path stores the upstream etag when
one is present and otherwise the freshly generated UUID string, so the
stored etag is non-empty whenever the upstream etag is absent (the
substitution does not cover a present-but-empty upstream etag); the row
it writes carries exactly the returned etag and vcard; and the sync path
stores the empty string when the upstream etag is absent. -/
theorem reactive_etag_amended (st : Store) (p : Person) (u now : String)
    (hu : ¬ u = "") :
    ((cache_person_to_conn st p u now).2.2.1 = p.etag.getD u) ∧
    (p.etag = none → ¬ (cache_person_to_conn st p u now).2.2.1 = "") ∧
    (get_contact (cache_person_to_conn st p u now).1 (cache_person_to_conn st p u now).2.1
      = some ((cache_person_to_conn st p u now).2.2.1,
              (cache_person_to_conn st p u now).2.2.2)) ∧
    (∀ rn, p.resource_name = some rn →
      get_contact (store_person st p now) rn
        = some (p.etag.getD "", person_to_vcard p now)) := by
  refine ⟨rfl, fun he => ?_, ?_, fun rn hrn => ?_⟩
  · show ¬ p.etag.getD u = ""
    rw [he]
    exact hu
  · exact get_contact_upsert_self st _ _ _ _ _ _
  · unfold store_person
    rw [hrn]
    exact get_contact_upsert_self st _ _ _ _ _ _

/-- Witness for reactive_etag_amended: caching a record with no upstream
etag stores the supplied UUID string, which is non-empty. -/
theorem reactive_etag_witness :
    ¬ (cache_person_to_conn Store.empty personGood
        "3a7c9d10-1234-4abc-8def-0123456789ab" "T").2.2.1 = "" :=
  (reactive_etag_amended Store.empty personGood
    "3a7c9d10-1234-4abc-8def-0123456789ab" "T" (by decide)).2.1 rfl

-- ── Claim C7 ────────────────────────────────────────────────────────────

theorem stripBasic_eq_some (s rest : List Char) :
    stripBasic s = some rest ↔ s = 'B' :: 'a' :: 's' :: 'i' :: 'c' :: ' ' :: rest := by
  constructor
  · intro h
    unfold stripBasic at h
    split at h
    next r =>
      obtain rfl := Option.some.inj h
      rfl
    next => exact absurd h (by simp)
  · rintro rfl
    rfl

theorem splitOnceAt_eq_some (c : Char) (l : List Char) : ∀ u v : List Char,
    splitOnceAt c l = some (u, v) ↔ l = u ++ c :: v ∧ ¬ c ∈ u := by
  induction l with
  | nil =>
    intro u v
    constructor
    · intro h
      simp [splitOnceAt] at h
    · rintro ⟨h, -⟩
      simp at h
  | cons x xs ih =>
    intro u v
    by_cases hx : x = c
    · subst hx
      rw [splitOnceAt, if_pos rfl]
      constructor
      · intro h
        have h' := Option.some.inj h
        rw [Prod.mk.injEq] at h'
        obtain ⟨hu, hv⟩ := h'
        subst hu
        subst hv
        exact ⟨rfl, by simp⟩
      · rintro ⟨heq, hnc⟩
        cases u with
        | nil =>
          simp only [List.nil_append, List.cons.injEq] at heq
          rw [heq.2]
        | cons y u' =>
          simp only [List.cons_append, List.cons.injEq] at heq
          exact absurd (heq.1 ▸ List.mem_cons_self x u') hnc
    · rw [splitOnceAt, if_neg hx]
      cases hs : splitOnceAt c xs with
      | none =>
        simp only [Option.map_none']
        constructor
        · intro h
          exact absurd h (by simp)
        · rintro ⟨heq, hnc⟩
          cases u with
          | nil =>
            simp only [List.nil_append, List.cons.injEq] at heq
            exact absurd heq.1 hx
          | cons y u' =>
            simp only [List.cons_append, List.cons.injEq] at heq
            have h2 : splitOnceAt c xs = some (u', v) :=
              (ih u' v).mpr ⟨heq.2, fun hm => hnc (List.mem_cons_of_mem _ hm)⟩
            rw [hs] at h2
            exact absurd h2 (by simp)
      | some p =>
        obtain ⟨p1, p2⟩ := p
        simp only [Option.map_some']
        have hxs := (ih p1 p2).mp hs
        constructor
        · intro h
          have h' := Option.some.inj h
          rw [Prod.mk.injEq] at h'
          obtain ⟨hu, hv⟩ := h'
          subst hu
          subst hv
          refine ⟨by rw [hxs.1]; rfl, ?_⟩
          intro hm
          cases List.mem_cons.mp hm with
          | inl hcx => exact hx hcx.symm
          | inr hcp => exact hxs.2 hcp
        · rintro ⟨heq, hnc⟩
          cases u with
          | nil =>
            simp only [List.nil_append, List.cons.injEq] at heq
            exact absurd heq.1 hx
          | cons y u' =>
            simp only [List.cons_append, List.cons.injEq] at heq
            obtain ⟨hy, hxs'⟩ := heq
            have h2 : splitOnceAt c xs = some (u', v) :=
              (ih u' v).mpr ⟨hxs', fun hm => hnc (List.mem_cons_of_mem _ hm)⟩
            rw [hs] at h2
            have h3 := Option.some.inj h2
            rw [Prod.mk.injEq] at h3
            rw [hy, h3.1, h3.2]

theorem authorization_accepted_iff (decode : String → Option String)
    (pw : String) (hdr : Option String) :
    authorization_accepted decode pw hdr = true ↔
      ∃ h e d u, hdr = some h ∧ h.data = 'B' :: 'a' :: 's' :: 'i' :: 'c' :: ' ' :: e ∧
        decode (String.mk e) = some d ∧ d.data = u ++ ':' :: pw.data ∧ ¬ ':' ∈ u := by
  cases hdr with
  | none =>
    constructor
    · intro h
      simp [authorization_accepted] at h
    · rintro ⟨h, e, d, u, hh, -⟩
      exact absurd hh (by simp)
  | some hs =>
    cases hsb : stripBasic hs.data with
    | none =>
      have hval : authorization_accepted decode pw (some hs) = false := by
        simp [authorization_accepted, hsb]
      rw [hval]
      constructor
      · intro h
        exact absurd h (by simp)
      · rintro ⟨h, e, d, u, hh, hdata, -, -, -⟩
        obtain rfl := Option.some.inj hh
        have hcontra := (stripBasic_eq_some hs.data e).mpr hdata
        rw [hsb] at hcontra
        exact absurd hcontra (by simp)
    | some e0 =>
      cases hdec : decode (String.mk e0) with
      | none =>
        have hval : authorization_accepted decode pw (some hs) = false := by
          simp [authorization_accepted, hsb, hdec]
        rw [hval]
        constructor
        · intro h
          exact absurd h (by simp)
        · rintro ⟨h, e, d, u, hh, hdata, hdec', -, -⟩
          obtain rfl := Option.some.inj hh
          have he : stripBasic hs.data = some e := (stripBasic_eq_some hs.data e).mpr hdata
          rw [hsb] at he
          obtain rfl := Option.some.inj he
          rw [hdec] at hdec'
          exact absurd hdec' (by simp)
      | some d0 =>
        cases hsp : splitOnceAt ':' d0.data with
        | none =>
          have hval : authorization_accepted decode pw (some hs) = false := by
            simp [authorization_accepted, hsb, hdec, hsp]
          rw [hval]
          constructor
          · intro h
            exact absurd h (by simp)
          · rintro ⟨h, e, d, u, hh, hdata, hdec', hd, hu⟩
            obtain rfl := Option.some.inj hh
            have he : stripBasic hs.data = some e := (stripBasic_eq_some hs.data e).mpr hdata
            rw [hsb] at he
            obtain rfl := Option.some.inj he
            rw [hdec] at hdec'
            obtain rfl := Option.some.inj hdec'
            have hcontra := (splitOnceAt_eq_some ':' d0.data u pw.data).mpr ⟨hd, hu⟩
            rw [hsp] at hcontra
            exact absurd hcontra (by simp)
        | some q =>
          obtain ⟨u0, p0⟩ := q
          have hval : authorization_accepted decode pw (some hs) = decide (p0 = pw.data) := by
            simp [authorization_accepted, hsb, hdec, hsp]
          rw [hval]
          constructor
          · intro h
            have hp0 : p0 = pw.data := of_decide_eq_true h
            have hch := (splitOnceAt_eq_some ':' d0.data u0 p0).mp hsp
            exact ⟨hs, e0, d0, u0, rfl, (stripBasic_eq_some hs.data e0).mp hsb,
              hdec, by rw [← hp0]; exact hch.1, hch.2⟩
          · rintro ⟨h, e, d, u, hh, hdata, hdec', hd, hu⟩
            obtain rfl := Option.some.inj hh
            have he : stripBasic hs.data = some e := (stripBasic_eq_some hs.data e).mpr hdata
            rw [hsb] at he
            obtain rfl := Option.some.inj he
            rw [hdec] at hdec'
            obtain rfl := Option.some.inj hdec'
            have hsp2 := (splitOnceAt_eq_some ':' d0.data u pw.data).mpr ⟨hd, hu⟩
            rw [hsp] at hsp2
            have h3 := Option.some.inj hsp2
            rw [Prod.mk.injEq] at h3
            simp [h3.2]

/-- Claim C7: when the CardDAV password is successfully read from the
vault for the request, a non-OPTIONS request is passed to the handler
exactly when its Authorization header carries a Basic credential whose
base64-decoded text, split at its first colon, has the password part
equal to the vault password (the user part being arbitrary and ignored);
every other non-OPTIONS request is answered 401 with the
WWW-Authenticate Basic realm header, while OPTIONS requests always pass
through. -/
theorem basic_auth_characterization (decode : String → Option String)
    (pw method : String) (hdr : Option String) :
    (basic_auth_middleware decode (Except.ok pw) method hdr = none ↔
      method = "OPTIONS" ∨
        ∃ h e d u, hdr = some h ∧ h.data = 'B' :: 'a' :: 's' :: 'i' :: 'c' :: ' ' :: e ∧
          decode (String.mk e) = some d ∧ d.data = u ++ ':' :: pw.data ∧ ¬ ':' ∈ u) ∧
    (∀ resp, basic_auth_middleware decode (Except.ok pw) method hdr = some resp →
      resp = { status := 401, www_authenticate := some "Basic realm=\"Setu CardDAV\"" }) := by
  unfold basic_auth_middleware
  by_cases hm : method = "OPTIONS"
  · rw [if_pos hm]
    refine ⟨⟨fun _ => Or.inl hm, fun _ => rfl⟩, fun resp hresp => ?_⟩
    exact absurd hresp (by simp)
  · rw [if_neg hm]
    by_cases hA : authorization_accepted decode pw hdr
    · simp only [hA, if_true]
      refine ⟨⟨fun _ => Or.inr ((authorization_accepted_iff decode pw hdr).mp hA),
        fun _ => by trivial⟩, fun resp hresp => ?_⟩
      exact absurd hresp (by simp)
    · simp only [Bool.not_eq_true] at hA
      simp only [hA, Bool.false_eq_true, if_false]
      refine ⟨⟨fun hno => absurd hno (by simp), fun hor => ?_⟩,
        fun resp hresp => (Option.some.inj hresp).symm⟩
      cases hor with
      | inl h => exact absurd h hm
      | inr h =>
        have := (authorization_accepted_iff decode pw hdr).mpr h
        rw [hA] at this
        exact absurd this (by simp)

/-- Witness for basic_auth_characterization: a GET with the right
password passes, and a GET with no header is blocked with the 401
challenge. -/
theorem basic_auth_witness :
    basic_auth_middleware (fun s => if s = "dXNlcjpwdw" then some "user:pw" else none)
      (Except.ok "pw") "GET" (some "Basic dXNlcjpwdw") = none ∧
    ∀ resp, basic_auth_middleware (fun s => if s = "dXNlcjpwdw" then some "user:pw" else none)
        (Except.ok "pw") "GET" none = some resp →
      resp = { status := 401, www_authenticate := some "Basic realm=\"Setu CardDAV\"" } := by
  constructor
  · exact (basic_auth_characterization _ "pw" "GET" _).1.mpr
      (Or.inr ⟨"Basic dXNlcjpwdw", "dXNlcjpwdw".data, "user:pw", "user".data,
        rfl, by decide, by decide, by decide, by decide⟩)
  · exact (basic_auth_characterization _ "pw" "GET" none).2

-- ── Claim C1: LIKE-stage characterization ───────────────────────────────

theorem any_congr_mem {α : Type} (l : List α) {p q : α → Bool}
    (h : ∀ x ∈ l, p x = q x) : l.any p = l.any q := by
  induction l with
  | nil => rfl
  | cons x t ih =>
    simp only [List.any_cons]
    rw [h x (List.mem_cons_self x t), ih (fun y hy => h y (List.mem_cons_of_mem _ hy))]

theorem isDigit_toNat {c : Char} (h : c.isDigit = true) :
    48 ≤ c.toNat ∧ c.toNat ≤ 57 := by
  unfold Char.isDigit at h
  simp only [Bool.and_eq_true, decide_eq_true_eq] at h
  obtain ⟨h1, h2⟩ := h
  have h1' : (48 : UInt32) ≤ c.val := h1
  have h2' : c.val ≤ 57 := h2
  rw [UInt32.le_def] at h1' h2'
  exact ⟨h1', h2'⟩

theorem safe_toNat {p : Char} (hp : p = '+' ∨ p.isDigit = true) :
    43 ≤ p.toNat ∧ p.toNat ≤ 57 := by
  cases hp with
  | inl h =>
    subst h
    decide
  | inr h =>
    have := isDigit_toNat h
    omega

theorem toNat_ofNat_small {n : Nat} (h : n < 55296) : (Char.ofNat n).toNat = n := by
  simp only [Char.ofNat, Nat.isValidChar]
  rw [dif_pos (Or.inl h)]
  simp [Char.ofNatAux, Char.toNat, UInt32.toNat]

theorem toLower_of_le57 {p : Char} (h : p.toNat ≤ 57) : p.toLower = p := by
  show (if p.toNat ≥ 65 ∧ p.toNat ≤ 90 then Char.ofNat (p.toNat + 32) else p) = p
  rw [if_neg (by omega)]

theorem toLower_eq_iff_safe {p : Char} (hp : 43 ≤ p.toNat ∧ p.toNat ≤ 57) (c : Char) :
    p.toLower = c.toLower ↔ p = c := by
  rw [toLower_of_le57 hp.2]
  by_cases h65 : c.toNat ≥ 65 ∧ c.toNat ≤ 90
  · have hlow : c.toLower = Char.ofNat (c.toNat + 32) := by
      show (if c.toNat ≥ 65 ∧ c.toNat ≤ 90 then Char.ofNat (c.toNat + 32) else c) = _
      rw [if_pos h65]
    rw [hlow]
    constructor
    · intro h
      exfalso
      have := congrArg Char.toNat h
      rw [toNat_ofNat_small (by omega)] at this
      omega
    · intro h
      exfalso
      have := congrArg Char.toNat h
      omega
  · have hlow : c.toLower = c := by
      show (if c.toNat ≥ 65 ∧ c.toNat ≤ 90 then Char.ofNat (c.toNat + 32) else c) = c
      rw [if_neg h65]
    rw [hlow]

theorem decide_toLower_beq {p : Char} (hp : 43 ≤ p.toNat ∧ p.toNat ≤ 57) (c : Char) :
    decide (p.toLower = c.toLower) = (p == c) :=
  decide_eq_decide.mpr (toLower_eq_iff_safe hp c)

theorem safe_ne_percent {p : Char} (hp : 43 ≤ p.toNat ∧ p.toNat ≤ 57) : ¬ p = '%' := by
  intro h
  subst h
  revert hp
  decide

theorem safe_ne_underscore {p : Char} (hp : 43 ≤ p.toNat ∧ p.toNat ≤ 57) : ¬ p = '_' := by
  intro h
  subst h
  revert hp
  decide

theorem tails_any_nil_pattern (s : List Char) :
    (s.tails.any fun t => likeMatch [] t) = true := by
  induction s with
  | nil => rfl
  | cons c t ih =>
    rw [List.tails_cons, List.any_cons, ih]
    simp

theorem likeMatch_literal : ∀ lit : List Char,
    (∀ p ∈ lit, 43 ≤ p.toNat ∧ p.toNat ≤ 57) →
    ∀ s : List Char, likeMatch (lit ++ ['%']) s = lit.isPrefixOf s := by
  intro lit
  induction lit with
  | nil =>
    intro _ s
    have h1 : likeMatch ['%'] s = true := by
      show (if ('%' : Char) = '%' then s.tails.any fun t => likeMatch [] t else _) = true
      rw [if_pos rfl]
      exact tails_any_nil_pattern s
    have h2 : ([] : List Char).isPrefixOf s = true := by cases s <;> rfl
    rw [List.nil_append, h1, h2]
  | cons p lit' ih =>
    intro hsafe s
    have hp := hsafe p (List.mem_cons_self p lit')
    have hsafe' : ∀ x ∈ lit', 43 ≤ x.toNat ∧ x.toNat ≤ 57 :=
      fun x hx => hsafe x (List.mem_cons_of_mem _ hx)
    cases s with
    | nil =>
      rw [List.cons_append]
      show (if p = '%' then ([] : List Char).tails.any fun t => likeMatch (lit' ++ ['%']) t
        else match ([] : List Char) with
          | [] => false
          | c :: s' => if p = '_' then likeMatch (lit' ++ ['%']) s'
            else (p.toLower = c.toLower) && likeMatch (lit' ++ ['%']) s') =
        (p :: lit').isPrefixOf []
      rw [if_neg (safe_ne_percent hp)]
      rfl
    | cons c s' =>
      rw [List.cons_append]
      show (if p = '%' then (c :: s').tails.any fun t => likeMatch (lit' ++ ['%']) t
        else match c :: s' with
          | [] => false
          | c :: s' => if p = '_' then likeMatch (lit' ++ ['%']) s'
            else (p.toLower = c.toLower) && likeMatch (lit' ++ ['%']) s') =
        (p :: lit').isPrefixOf (c :: s')
      rw [if_neg (safe_ne_percent hp)]
      show (if p = '_' then likeMatch (lit' ++ ['%']) s'
        else decide (p.toLower = c.toLower) && likeMatch (lit' ++ ['%']) s') = _
      rw [if_neg (safe_ne_underscore hp), decide_toLower_beq hp c, ih hsafe' s']
      rfl

theorem isSubstringOf_eq_any_tails (needle : List Char) : ∀ s : List Char,
    isSubstringOf needle s = s.tails.any fun t => needle.isPrefixOf t := by
  intro s
  induction s with
  | nil =>
    show needle.isEmpty = _
    cases needle <;> rfl
  | cons c t ih =>
    show (needle.isPrefixOf (c :: t) || isSubstringOf needle t) = _
    rw [List.tails_cons, List.any_cons, ih]

theorem likeMatch_pattern_substring (lit : List Char)
    (hsafe : ∀ p ∈ lit, 43 ≤ p.toNat ∧ p.toNat ≤ 57) (s : List Char) :
    likeMatch ('%' :: (lit ++ ['%'])) s = isSubstringOf lit s := by
  show (if ('%' : Char) = '%' then s.tails.any fun t => likeMatch (lit ++ ['%']) t
    else _) = _
  rw [if_pos rfl, isSubstringOf_eq_any_tails]
  exact any_congr_mem s.tails (fun t _ => likeMatch_literal lit hsafe t)

-- ── Claim C1: main theorems ─────────────────────────────────────────────

/-- Claim C1 counterexample: for the query "5_5", SQLite LIKE treats the
underscore as a one-character wildcard, so the row with searchable_phone
"5X5 5" passes the pre-filter and its token "5" passes the suffix
refinement: search_by_phone returns the row although "5_5" is not a
substring of its searchable_phone, where the claim returns nothing. -/
theorem search_by_phone_cex :
    search_by_phone cexStore "5_5" = [("people/cX", "e", "v")] ∧
    search_by_phone_spec cexStore "5_5" = [] ∧
    isSubstringOf "5_5".data "5X5 5".data = false :=
  ⟨by decide, by decide, by decide⟩

/-- Claim C1 (amended): for every store and every query consisting only
of plus signs and ASCII digits — exactly the strings phone normalization
produces — search_by_phone returns the empty list when the query is
empty or all plus signs, and otherwise exactly the rows, ordered by
display_name, whose searchable_phone contains the stripped query digits
as a substring and which have a space-separated token that, after
stripping leading plus signs, ends with the query digits or is a suffix
of them. -/
theorem search_by_phone_amended (st : Store) (q : String)
    (hq : ∀ c ∈ q.data, c = '+' ∨ c.isDigit = true) :
    search_by_phone st q = search_by_phone_spec st q := by
  unfold search_by_phone search_by_phone_spec
  by_cases hq0 : q = ""
  · subst hq0
    rw [if_pos rfl, if_pos (by rfl)]
  · rw [if_neg hq0]
    by_cases hqd : (q.data.dropWhile (· == '+')).isEmpty
    · rw [if_pos hqd]
      have hnil : q.data.dropWhile (· == '+') = [] := by
        cases hdw : q.data.dropWhile (· == '+') with
        | nil => rfl
        | cons a b =>
          rw [hdw] at hqd
          simp at hqd
      have hall : q.data.all (· == '+') = true :=
        List.all_eq_true.mpr (List.dropWhile_eq_nil_iff.mp hnil)
      rw [if_pos hall]
    · rw [if_neg hqd]
      have hall : ¬ q.data.all (· == '+') = true := by
        intro hall
        have hnil : q.data.dropWhile (· == '+') = [] :=
          List.dropWhile_eq_nil_iff.mpr (List.all_eq_true.mp hall)
        rw [hnil] at hqd
        simp at hqd
      rw [if_neg hall, List.filter_filter]
      congr 1
      apply List.filter_congr
      intro c _
      have hsafe : ∀ p ∈ q.data.dropWhile (· == '+'), 43 ≤ p.toNat ∧ p.toNat ≤ 57 :=
        fun p hp => safe_toNat (hq p ((List.dropWhile_sublist _).subset hp))
      rw [likeMatch_pattern_substring _ hsafe, Bool.and_comm]

/-- Witness for search_by_phone_amended on a digits-only query. -/
theorem search_by_phone_amended_witness :
    search_by_phone wStore "5550100" = search_by_phone_spec wStore "5550100" ∧
    search_by_phone wStore "5550100" = [("people/c1", "e1", "vc1")] :=
  ⟨search_by_phone_amended wStore "5550100" (by decide), by decide⟩

-- ── Claim C4: cleanliness infrastructure ────────────────────────────────

theorem cleanStr_iff (s : String) : noCRLF s = true ↔ cleanStr s := by
  unfold noCRLF cleanStr
  rw [List.all_eq_true]
  constructor
  · intro h c hc
    exact of_decide_eq_true (h c hc)
  · intro h c hc
    exact decide_eq_true (h c hc)

theorem cleanStr_append {a b : String} (ha : cleanStr a) (hb : cleanStr b) :
    cleanStr (a ++ b) := by
  unfold cleanStr
  rw [String.data_append]
  rw [List.forall_mem_append]
  exact ⟨ha, hb⟩

theorem replaceChar_pres {P : Char → Prop} (t : Char) (r l : List Char)
    (hr : ∀ c ∈ r, P c) (hl : ∀ c ∈ l, P c) :
    ∀ c ∈ replaceChar t r l, P c := by
  intro c hc
  unfold replaceChar at hc
  rw [List.mem_flatMap] at hc
  obtain ⟨x, hx, hcx⟩ := hc
  by_cases hxt : x = t
  · rw [if_pos hxt] at hcx
    exact hr c hcx
  · rw [if_neg hxt] at hcx
    rw [List.mem_singleton] at hcx
    exact hcx ▸ hl x hx

theorem replaceChar_kill (t : Char) (r l : List Char) (hr : ¬ t ∈ r) :
    ¬ t ∈ replaceChar t r l := by
  intro hmem
  unfold replaceChar at hmem
  rw [List.mem_flatMap] at hmem
  obtain ⟨x, hx, hcx⟩ := hmem
  by_cases hxt : x = t
  · rw [if_pos hxt] at hcx
    exact hr hcx
  · rw [if_neg hxt] at hcx
    rw [List.mem_singleton] at hcx
    exact hxt hcx.symm

theorem escape_clean {s : String} (hs : noCR s = true) : cleanStr (escape s) := by
  have hs' : ∀ c ∈ s.data, ¬ c = '\r' := by
    intro c hc
    have := List.all_eq_true.mp hs c hc
    exact of_decide_eq_true this
  have h1 : ∀ c ∈ replaceChar '\\' ['\\', '\\'] s.data, ¬ c = '\r' :=
    replaceChar_pres _ _ _ (by decide) hs'
  have h2 : ∀ c ∈ replaceChar ';' ['\\', ';'] (replaceChar '\\' ['\\', '\\'] s.data),
      ¬ c = '\r' :=
    replaceChar_pres _ _ _ (by decide) h1
  have h3 : ∀ c ∈ replaceChar ',' ['\\', ',']
      (replaceChar ';' ['\\', ';'] (replaceChar '\\' ['\\', '\\'] s.data)), ¬ c = '\r' :=
    replaceChar_pres _ _ _ (by decide) h2
  have h4 : ∀ c ∈ replaceChar '\n' ['\\', 'n'] (replaceChar ',' ['\\', ',']
      (replaceChar ';' ['\\', ';'] (replaceChar '\\' ['\\', '\\'] s.data))), ¬ c = '\r' :=
    replaceChar_pres _ _ _ (by decide) h3
  have hlf := replaceChar_kill '\n' ['\\', 'n'] (replaceChar ',' ['\\', ',']
      (replaceChar ';' ['\\', ';'] (replaceChar '\\' ['\\', '\\'] s.data))) (by decide)
  intro c hc
  have hc' : c ∈ replaceChar '\n' ['\\', 'n'] (replaceChar ',' ['\\', ',']
      (replaceChar ';' ['\\', ';'] (replaceChar '\\' ['\\', '\\'] s.data))) := hc
  refine ⟨h4 c hc', fun heq => hlf ?_⟩
  rw [heq] at hc'
  exact hc'

theorem crlfOnly_cons_ne {c : Char} (rest : List Char) (h1 : ¬ c = '\r') :
    crlfOnly (c :: rest) = (decide (¬ c = '\n') && crlfOnly rest) := by
  conv_lhs => rw [crlfOnly.eq_def]
  simp only [if_neg h1]

theorem crlfOnly_clean_append (l t : List Char)
    (hl : ∀ c ∈ l, ¬ c = '\r' ∧ ¬ c = '\n') (ht : crlfOnly t = true) :
    crlfOnly (l ++ t) = true := by
  induction l with
  | nil => exact ht
  | cons c l' ih =>
    have hc := hl c (List.mem_cons_self c l')
    rw [List.cons_append, crlfOnly_cons_ne _ hc.1,
      ih (fun x hx => hl x (List.mem_cons_of_mem _ hx))]
    simp [hc.2]

theorem crlfOnly_joinCrlf : ∀ lines : List String,
    (∀ l ∈ lines, cleanStr l) → crlfOnly (joinCrlf lines).data = true := by
  intro lines
  induction lines with
  | nil =>
    intro _
    decide
  | cons l ls ih =>
    intro h
    have hl := h l (List.mem_cons_self l ls)
    cases ls with
    | nil =>
      show crlfOnly (l ++ "\r\n").data = true
      rw [String.data_append]
      exact crlfOnly_clean_append _ _ hl (by decide)
    | cons l2 ls2 =>
      show crlfOnly (l ++ "\r\n" ++ joinCrlf (l2 :: ls2)).data = true
      rw [String.data_append, String.data_append, List.append_assoc]
      refine crlfOnly_clean_append _ _ hl ?_
      show crlfOnly ((joinCrlf (l2 :: ls2)).data) = true
      exact ih (fun x hx => h x (List.mem_cons_of_mem _ hx))

theorem joinCrlf_begins (l : String) (ls : List String) :
    ∃ rest, (joinCrlf (l :: ls)).data = l.data ++ '\r' :: '\n' :: rest := by
  cases ls with
  | nil =>
    refine ⟨[], ?_⟩
    show (l ++ "\r\n").data = _
    rw [String.data_append]
  | cons l2 ls2 =>
    refine ⟨(joinCrlf (l2 :: ls2)).data, ?_⟩
    show (l ++ "\r\n" ++ joinCrlf (l2 :: ls2)).data = _
    rw [String.data_append, String.data_append, List.append_assoc]
    rfl

theorem joinCrlf_ends : ∀ (front : List String) (z : String),
    ∃ pre, (joinCrlf (front ++ [z])).data = pre ++ (z.data ++ ['\r', '\n']) := by
  intro front
  induction front with
  | nil =>
    intro z
    refine ⟨[], ?_⟩
    show (z ++ "\r\n").data = _
    rw [String.data_append]
    rfl
  | cons a front' ih =>
    intro z
    obtain ⟨pre, hpre⟩ := ih z
    cases front' with
    | nil =>
      refine ⟨a.data ++ ['\r', '\n'], ?_⟩
      have hz : (joinCrlf [z]).data = z.data ++ ['\r', '\n'] := by
        show (z ++ "\r\n").data = _
        rw [String.data_append]
      show (a ++ "\r\n" ++ joinCrlf [z]).data = _
      rw [String.data_append, String.data_append, hz]
    | cons b fr =>
      refine ⟨a.data ++ '\r' :: '\n' :: pre, ?_⟩
      show (a ++ "\r\n" ++ joinCrlf ((b :: fr) ++ [z])).data = _
      rw [String.data_append, String.data_append, hpre]
      simp [List.append_assoc]

theorem ends_with_last {α : Type} (A B : List α) (z : α)
    (h : ∃ F, B = F ++ [z]) : ∃ F, A ++ B = F ++ [z] := by
  obtain ⟨F, hF⟩ := h
  exact ⟨A ++ F, by rw [hF, List.append_assoc]⟩

theorem noCR_iff (s : String) : noCR s = true ↔ ∀ c ∈ s.data, ¬ c = '\r' := by
  unfold noCR
  rw [List.all_eq_true]
  constructor
  · intro h c hc
    exact of_decide_eq_true (h c hc)
  · intro h c hc
    exact decide_eq_true (h c hc)

theorem uid_clean {s : String} (h : noCRLF s = true) :
    cleanStr (String.mk (mapChar '/' '-' s.data)) := by
  intro c hc
  have hc' : c ∈ List.map (fun x => if x = '/' then '-' else x) s.data := hc
  rw [List.mem_map] at hc'
  obtain ⟨x, hx, hfx⟩ := hc'
  have hxc := (cleanStr_iff s).mp h x hx
  by_cases hxs : x = '/'
  · rw [if_pos hxs] at hfx
    rw [← hfx]
    decide
  · rw [if_neg hxs] at hfx
    rw [← hfx]
    exact hxc

theorem mem_trimEnds {c : Char} {l : List Char} (h : c ∈ trimEnds l) : c ∈ l := by
  unfold trimEnds at h
  rw [List.mem_reverse] at h
  have h1 := (List.dropWhile_sublist _).subset h
  rw [List.mem_reverse] at h1
  exact (List.dropWhile_sublist _).subset h1

theorem digitChar_clean (n : Nat) : ¬ digitChar n = '\r' ∧ ¬ digitChar n = '\n' := by
  unfold digitChar
  split <;> decide

theorem natToCharsF_clean : ∀ (fuel n : Nat) (c : Char), c ∈ natToCharsF fuel n →
    ¬ c = '\r' ∧ ¬ c = '\n' := by
  intro fuel
  induction fuel with
  | zero =>
    intro n c hc
    rw [natToCharsF, List.mem_singleton] at hc
    exact hc ▸ digitChar_clean n
  | succ f ih =>
    intro n c hc
    rw [natToCharsF] at hc
    by_cases hn : n < 10
    · rw [if_pos hn, List.mem_singleton] at hc
      exact hc ▸ digitChar_clean n
    · rw [if_neg hn, List.mem_append] at hc
      cases hc with
      | inl hc1 => exact ih (n / 10) c hc1
      | inr hc2 =>
        rw [List.mem_singleton] at hc2
        exact hc2 ▸ digitChar_clean n

theorem padNum_clean (w : Nat) (n : Int) : cleanStr (padNum w n) := by
  intro c hc
  unfold padNum at hc
  by_cases hn : n < 0
  · rw [if_pos hn] at hc
    have hc' : c ∈ '-' :: (List.replicate (w - 1 - (natToChars n.natAbs).length) '0'
        ++ natToChars n.natAbs) := by
      rw [show (if n < 0 then 1 else 0) = 1 from if_pos hn] at hc
      exact hc
    rcases List.mem_cons.mp hc' with rfl | hc''
    · decide
    · rcases List.mem_append.mp hc'' with hrep | hdig
      · rw [List.eq_of_mem_replicate hrep]
        decide
      · exact natToCharsF_clean _ _ c hdig
  · rw [if_neg hn] at hc
    have hc' : c ∈ List.replicate (w - (if n < 0 then 1 else 0) -
        (natToChars n.natAbs).length) '0' ++ natToChars n.natAbs := hc
    rcases List.mem_append.mp hc' with hrep | hdig
    · rw [List.eq_of_mem_replicate hrep]
      decide
    · exact natToCharsF_clean _ _ c hdig

set_option maxHeartbeats 1000000 in
theorem nameLines_clean (n : PName)
    (hd : noCR (n.display_name.getD "") = true) (hf : noCR (n.family_name.getD "") = true)
    (hg : noCR (n.given_name.getD "") = true) (hm : noCR (n.middle_name.getD "") = true)
    (hp : noCR (n.honorific_pre.getD "") = true) (hs : noCR (n.honorific_suffix.getD "") = true) :
    ∀ l ∈ nameLines n, cleanStr l := by
  intro l hl
  have htrim : noCR (String.mk (trimEnds
      ((n.given_name.getD "") ++ " " ++ (n.family_name.getD "")).data)) = true := by
    rw [noCR_iff]
    intro c hc
    have hmem := mem_trimEnds hc
    rw [String.data_append, String.data_append] at hmem
    rcases List.mem_append.mp hmem with hgl | hfl
    · rcases List.mem_append.mp hgl with hg2 | hsp
      · exact (noCR_iff _).mp hg c hg2
      · rw [List.mem_singleton.mp hsp]
        decide
    · exact (noCR_iff _).mp hf c hfl
  simp only [nameLines, List.mem_cons, List.mem_singleton, List.not_mem_nil,
    or_false] at hl
  rcases hl with rfl | rfl
  · repeat' apply cleanStr_append
    all_goals first
      | exact escape_clean hf
      | exact escape_clean hg
      | exact escape_clean hm
      | exact escape_clean hp
      | exact escape_clean hs
      | decide
  · split
    · repeat' apply cleanStr_append
      all_goals first
        | exact escape_clean hd
        | decide
    · repeat' apply cleanStr_append
      all_goals first
        | exact escape_clean htrim
        | decide

theorem emailLines_cons (e : PEmail) (es : List PEmail) :
    emailLines (e :: es) =
      if e.value.getD "" = "" then emailLines es
      else ("EMAIL;TYPE=" ++ (if e.type_ = some "home" then "HOME"
        else if e.type_ = some "work" then "WORK" else "INTERNET")
        ++ ":" ++ e.value.getD "") :: emailLines es := rfl

theorem emailLines_clean : ∀ emails : List PEmail,
    (∀ e ∈ emails, noCRLF (e.value.getD "") = true) →
    ∀ l ∈ emailLines emails, cleanStr l := by
  intro emails
  induction emails with
  | nil =>
    intro _ l hl
    simp [emailLines] at hl
  | cons e es ih =>
    intro h l hl
    have hes := fun x hx => h x (List.mem_cons_of_mem _ hx)
    rw [emailLines_cons] at hl
    by_cases ha : e.value.getD "" = ""
    · rw [if_pos ha] at hl
      exact ih hes l hl
    · rw [if_neg ha] at hl
      rcases List.mem_cons.mp hl with rfl | hl'
      · repeat' apply cleanStr_append
        all_goals first
          | exact (cleanStr_iff _).mp (h e (List.mem_cons_self e es))
          | (split_ifs <;> decide)
          | decide
      · exact ih hes l hl'

theorem telLines_cons (ph : PPhone) (phs : List PPhone) :
    telLines (ph :: phs) =
      if ph.value.getD "" = "" then telLines phs
      else ("TEL;TYPE=" ++ (if ph.type_ = some "mobile" then "CELL"
        else if ph.type_ = some "home" then "HOME"
        else if ph.type_ = some "work" then "WORK"
        else if ph.type_ = some "homeFax" ∨ ph.type_ = some "workFax" then "FAX"
        else "VOICE")
        ++ ":" ++ ph.value.getD "") :: telLines phs := rfl

theorem telLines_clean : ∀ phones : List PPhone,
    (∀ ph ∈ phones, noCRLF (ph.value.getD "") = true) →
    ∀ l ∈ telLines phones, cleanStr l := by
  intro phones
  induction phones with
  | nil =>
    intro _ l hl
    simp [telLines] at hl
  | cons ph phs ih =>
    intro h l hl
    have hes := fun x hx => h x (List.mem_cons_of_mem _ hx)
    rw [telLines_cons] at hl
    by_cases ha : ph.value.getD "" = ""
    · rw [if_pos ha] at hl
      exact ih hes l hl
    · rw [if_neg ha] at hl
      rcases List.mem_cons.mp hl with rfl | hl'
      · repeat' apply cleanStr_append
        all_goals first
          | exact (cleanStr_iff _).mp (h ph (List.mem_cons_self ph phs))
          | (split_ifs <;> decide)
          | decide
      · exact ih hes l hl'

theorem adrLines_clean (addrs : List PAddress)
    (h : ∀ a ∈ addrs, noCR (a.street_address.getD "") = true ∧
      noCR (a.city.getD "") = true ∧ noCR (a.region.getD "") = true ∧
      noCR (a.postal_code.getD "") = true ∧ noCR (a.country.getD "") = true) :
    ∀ l ∈ adrLines addrs, cleanStr l := by
  intro l hl
  unfold adrLines at hl
  rw [List.mem_map] at hl
  obtain ⟨a, ha, rfl⟩ := hl
  obtain ⟨h1, h2, h3, h4, h5⟩ := h a ha
  repeat' apply cleanStr_append
  all_goals first
    | exact escape_clean h1
    | exact escape_clean h2
    | exact escape_clean h3
    | exact escape_clean h4
    | exact escape_clean h5
    | (split_ifs <;> decide)
    | decide

theorem orgLines_clean (orgs : List POrganization)
    (h : ∀ o ∈ orgs, noCR (o.name.getD "") = true ∧ noCR (o.title.getD "") = true) :
    ∀ l ∈ orgLines orgs, cleanStr l := by
  intro l hl
  unfold orgLines at hl
  cases ho : orgs.head? with
  | none =>
    rw [ho] at hl
    simp at hl
  | some org =>
    simp only [ho] at hl
    have hmem : org ∈ orgs := by
      cases orgs with
      | nil => simp at ho
      | cons o t =>
        have hoe : o = org := by simpa using ho
        exact hoe ▸ List.mem_cons_self o t
    obtain ⟨hn, ht⟩ := h org hmem
    rcases List.mem_append.mp hl with h1 | h2
    · cases hon : org.name with
      | none =>
        simp only [hon] at h1
        simp at h1
      | some name =>
        simp only [hon] at h1
        rw [List.mem_singleton] at h1
        subst h1
        refine cleanStr_append (by decide) (escape_clean ?_)
        rw [hon] at hn
        exact hn
    · cases hot : org.title with
      | none =>
        simp only [hot] at h2
        simp at h2
      | some title =>
        simp only [hot] at h2
        rw [List.mem_singleton] at h2
        subst h2
        refine cleanStr_append (by decide) (escape_clean ?_)
        rw [hot] at ht
        exact ht

theorem bdayLines_clean (bdays : List PBirthday) :
    ∀ l ∈ bdayLines bdays, cleanStr l := by
  intro l hl
  unfold bdayLines at hl
  cases hb : bdays.head? with
  | none =>
    rw [hb] at hl
    simp at hl
  | some bday =>
    simp only [hb] at hl
    cases hd : bday.date with
    | none =>
      simp only [hd] at hl
      simp at hl
    | some date =>
      simp only [hd] at hl
      split at hl
      · split at hl
        · rw [List.mem_singleton] at hl
          subst hl
          repeat' apply cleanStr_append
          all_goals first
            | exact padNum_clean _ _
            | decide
        · rw [List.mem_singleton] at hl
          subst hl
          repeat' apply cleanStr_append
          all_goals first
            | exact padNum_clean _ _
            | decide
      · simp at hl

theorem photoLines_clean (photos : List PPhoto)
    (h : ∀ ph ∈ photos, noCRLF (ph.url.getD "") = true) :
    ∀ l ∈ photoLines photos, cleanStr l := by
  intro l hl
  unfold photoLines at hl
  cases hph : photos.head? with
  | none =>
    rw [hph] at hl
    simp at hl
  | some photo =>
    simp only [hph] at hl
    have hmem : photo ∈ photos := by
      cases photos with
      | nil => simp at hph
      | cons p t =>
        have hpe : p = photo := by simpa using hph
        exact hpe ▸ List.mem_cons_self p t
    cases hu : photo.url with
    | none =>
      simp only [hu] at hl
      simp at hl
    | some url =>
      simp only [hu] at hl
      split at hl
      · simp at hl
      · rw [List.mem_singleton] at hl
        subst hl
        refine cleanStr_append (by decide) ?_
        have hclean := (cleanStr_iff _).mp (h photo hmem)
        rw [hu] at hclean
        exact hclean

theorem vcardLines_clean (p : Person) (now : String) (hp : personClean p = true)
    (hnow : noCRLF now = true) : ∀ l ∈ vcardLines p now, cleanStr l := by
  unfold personClean at hp
  simp only [Bool.and_eq_true] at hp
  obtain ⟨⟨⟨⟨⟨⟨h1, h2⟩, h3⟩, h4⟩, h5⟩, h6⟩, h7⟩ := hp
  intro l hl
  unfold vcardLines at hl
  simp only [List.mem_append] at hl
  rcases hl with ((((((((hl | hl) | hl) | hl) | hl) | hl) | hl) | hl) | hl)
  · simp only [List.mem_cons, List.mem_singleton, List.not_mem_nil, or_false] at hl
    rcases hl with rfl | rfl | rfl
    · decide
    · decide
    · exact cleanStr_append (by decide) (uid_clean h1)
  · cases hn : p.names with
    | none =>
      simp only [hn] at hl
      simp only [List.mem_cons, List.mem_singleton, List.not_mem_nil, or_false] at hl
      rcases hl with rfl | rfl
      · decide
      · decide
    | some names =>
      simp only [hn] at hl h2
      cases hh : names.head? with
      | none =>
        simp only [hh] at hl
        simp at hl
      | some n =>
        simp only [hh] at hl
        have hnmem : n ∈ names := by
          cases names with
          | nil => simp at hh
          | cons n0 t =>
            have hne : n0 = n := by simpa using hh
            exact hne ▸ List.mem_cons_self n0 t
        have hfields := List.all_eq_true.mp h2 n hnmem
        simp only [Bool.and_eq_true] at hfields
        exact nameLines_clean n hfields.1.1.1.1.1 hfields.1.1.1.1.2 hfields.1.1.1.2
          hfields.1.1.2 hfields.1.2 hfields.2 l hl
  · cases he : p.email_addresses with
    | none =>
      simp only [he] at hl
      simp at hl
    | some emails =>
      simp only [he] at hl h3
      exact emailLines_clean emails (fun e hx => List.all_eq_true.mp h3 e hx) l hl
  · cases hph : p.phone_numbers with
    | none =>
      simp only [hph] at hl
      simp at hl
    | some phones =>
      simp only [hph] at hl h4
      exact telLines_clean phones (fun e hx => List.all_eq_true.mp h4 e hx) l hl
  · cases ha : p.addresses with
    | none =>
      simp only [ha] at hl
      simp at hl
    | some addrs =>
      simp only [ha] at hl h5
      refine adrLines_clean addrs (fun a hx => ?_) l hl
      have hfields := List.all_eq_true.mp h5 a hx
      simp only [Bool.and_eq_true] at hfields
      exact ⟨hfields.1.1.1.1, hfields.1.1.1.2, hfields.1.1.2, hfields.1.2, hfields.2⟩
  · cases ho : p.organizations with
    | none =>
      simp only [ho] at hl
      simp at hl
    | some orgs =>
      simp only [ho] at hl h6
      refine orgLines_clean orgs (fun o hx => ?_) l hl
      have hfields := List.all_eq_true.mp h6 o hx
      simp only [Bool.and_eq_true] at hfields
      exact hfields
  · cases hb : p.birthdays with
    | none =>
      simp only [hb] at hl
      simp at hl
    | some bdays =>
      simp only [hb] at hl
      exact bdayLines_clean bdays l hl
  · cases hpo : p.photos with
    | none =>
      simp only [hpo] at hl
      simp at hl
    | some photos =>
      simp only [hpo] at hl h7
      exact photoLines_clean photos (fun ph hx => List.all_eq_true.mp h7 ph hx) l hl
  · simp only [List.mem_cons, List.mem_singleton, List.not_mem_nil, or_false] at hl
    rcases hl with rfl | rfl
    · exact cleanStr_append (by decide) ((cleanStr_iff now).mp hnow)
    · decide

-- ── Claim C4: main theorems ─────────────────────────────────────────────

/-- Claim C4 counterexample: the codec emits phone values verbatim, so a
line feed inside a phone value survives as a bare LF, and the escape
function does not rewrite carriage returns, so a CR inside a family name
survives as a bare CR; in both cases the output is not CRLF-exclusive. -/
theorem person_to_vcard_crlf_cex :
    crlfOnly (person_to_vcard personBadPhone "2024-01-01T00:00:00Z").data = false ∧
    crlfOnly (person_to_vcard personBadName "2024-01-01T00:00:00Z").data = false :=
  ⟨by decide, by decide⟩

/-- Claim C4 (amended): for every input record the vCard text begins
with BEGIN:VCARD followed by CRLF and ends with END:VCARD followed by
CRLF; and provided the record is clean — no text field contains a
carriage return, and the verbatim-emitted fields (resource name, email
values, phone values, photo URL) and the REV timestamp contain neither
carriage return nor line feed — the whole output uses CRLF exclusively
as the line terminator. -/
theorem person_to_vcard_crlf (p : Person) (now : String) :
    (∃ rest, (person_to_vcard p now).data = "BEGIN:VCARD".data ++ '\r' :: '\n' :: rest) ∧
    (∃ pre, (person_to_vcard p now).data = pre ++ ("END:VCARD".data ++ ['\r', '\n'])) ∧
    (personClean p = true → noCRLF now = true →
      crlfOnly (person_to_vcard p now).data = true) := by
  refine ⟨?_, ?_, fun hp hnow => ?_⟩
  · exact joinCrlf_begins "BEGIN:VCARD" _
  · unfold person_to_vcard
    have hshape : ∃ F, vcardLines p now = F ++ ["END:VCARD"] := by
      unfold vcardLines
      exact ends_with_last _ _ _ ⟨["REV:" ++ now], rfl⟩
    obtain ⟨F, hF⟩ := hshape
    rw [hF]
    exact joinCrlf_ends F "END:VCARD"
  · exact crlfOnly_joinCrlf _ (vcardLines_clean p now hp hnow)

/-- Witness for person_to_vcard_crlf: a clean record yields a card that
is CRLF-exclusive. -/
theorem person_to_vcard_crlf_witness :
    crlfOnly (person_to_vcard personGood "2024-01-01T00:00:00Z").data = true :=
  (person_to_vcard_crlf personGood "2024-01-01T00:00:00Z").2.2 (by decide) (by decide)

end Setu
